import Mathlib

/-!
A Lean model of the RESP stub server shipped with grafana/xk6-redis
(package redis, stubserver file).  The model covers the RESP codec
(scanLine / scanBulkString / scanArray / ReadCommand on the decode side,
the Write* family on the encode side) and the per-connection serving loop
(handleConnection / handleCommand / RegisterCommandHandler), together with
theorems about round-tripping, dispatch counting, history ordering and
error handling.

Modelling conventions:
 - Go byte strings are modelled as `List Char` (the data handled by the stub
   is treated byte-for-byte; `chars` converts a Lean string literal).
 - The connection's incoming byte stream is the list of all bytes the client
   ever sends; a read past its end is the read error Go would surface when
   the peer closes the connection.
 - Fallible operations return `Except RespError`; the constructors separate
   the distinct error values of the source (`ErrInvalidSyntax`, an error
   from `strconv.Atoi`, an I/O error from the reader).
 - `fmt` integer formatting (`%d`) is modelled by `intDecimal` /
   `natDecimal`, decimal notation with a leading `-` for negatives.
 - `strconv.Atoi` is modelled by `goAtoi`, including its int64 range check.
 - `strings.ToUpper` is modelled on the ASCII range (`goToUpper`); the stub
   works with ASCII command names, and non-ASCII code points pass through
   unchanged in the model.
 - Bytes written to the connection's buffered writer are collected in a
   `List Char`; buffering/flushing is not distinguished from the wire.
-/

/-- Convert a string literal to the byte-list representation used throughout. -/
def chars (s : String) : List Char := s.toList

/-- The RESP line terminator. -/
def crlf : List Char := ['\r', '\n']

/-- Decimal digit test, as `strconv.Atoi` classifies digits. -/
def isDigit (c : Char) : Bool := '0' ≤ c && c ≤ '9'

/-- Value of a digit string, most significant digit first (the accumulator
loop inside `strconv.ParseInt`). -/
def digitsVal (ds : List Char) : Nat :=
  ds.foldl (fun acc c => acc * 10 + (c.toNat - 48)) 0

/-- The character for a single decimal digit. -/
def digitChar (d : Nat) : Char := Char.ofNat (48 + d)

/-- Decimal digits of a natural number, fuelled structural recursion
(`natDecimal` always supplies enough fuel). -/
def natDecimalAux : Nat → Nat → List Char
  | 0, _ => []
  | _ + 1, 0 => []
  | fuel + 1, n + 1 =>
    natDecimalAux fuel ((n + 1) / 10) ++ [digitChar ((n + 1) % 10)]

/-- Decimal notation of a natural number, as `fmt` renders a non-negative
integer with the `%d` verb. -/
def natDecimal (n : Nat) : List Char :=
  if n = 0 then ['0'] else natDecimalAux n n

/-- Decimal notation of an integer, as `fmt` renders an int with `%d`. -/
def intDecimal (i : Int) : List Char :=
  if i < 0 then '-' :: natDecimal i.natAbs else natDecimal i.natAbs

/-- Model of `strconv.Atoi`: optional sign, at least one decimal digit,
value within the int64 range. -/
def goAtoi (s : List Char) : Except Unit Int :=
  match s with
  | [] => .error ()
  | c :: cs =>
    let ds := if c = '-' ∨ c = '+' then cs else s
    if ds = [] then .error ()
    else if ds.all isDigit then
      let mag : Int := (digitsVal ds : Int)
      let v : Int := if c = '-' then -mag else mag
      if v < -(2 ^ 63) ∨ 2 ^ 63 - 1 < v then .error () else .ok v
    else .error ()

/-- ASCII upper-casing of one character (the relevant fragment of
`strings.ToUpper`). -/
def upChar (c : Char) : Char :=
  if 'a' ≤ c ∧ c ≤ 'z' then Char.ofNat (c.toNat - 32) else c

/-- Model of `strings.ToUpper` on the ASCII range. -/
def goToUpper (s : List Char) : List Char := s.map upChar

/-- Model of `unicode.IsSpace`: the White_Space code points. -/
def goIsSpace (c : Char) : Bool :=
  let n := c.toNat
  n = 9 || n = 10 || n = 11 || n = 12 || n = 13 || n = 32 ||
    n = 0x85 || n = 0xA0 || n = 0x1680 || (0x2000 ≤ n && n ≤ 0x200A) ||
    n = 0x2028 || n = 0x2029 || n = 0x202F || n = 0x205F || n = 0x3000

/-- The `inline` helper of the response writer: `strings.Map` replacing every
whitespace rune by a single space (the mapping never drops a rune, so it is
a plain map). -/
def inlineText (s : List Char) : List Char :=
  s.map (fun c => if goIsSpace c then ' ' else c)

/-- `RESPResponseWriter.WriteSimpleString`: `+<inline text>\r\n`. -/
def WriteSimpleString (s : List Char) : List Char :=
  '+' :: inlineText s ++ crlf

/-- `RESPResponseWriter.WriteError`: `-<inline message>\r\n` (the model takes
the error's message string directly). -/
def WriteError (msg : List Char) : List Char :=
  '-' :: inlineText msg ++ crlf

/-- `RESPResponseWriter.WriteInteger`: `:<decimal>\r\n`. -/
def WriteInteger (i : Int) : List Char :=
  ':' :: intDecimal i ++ crlf

/-- `RESPResponseWriter.WriteBulkString`: `$<byte length>\r\n<bytes>\r\n`. -/
def WriteBulkString (s : List Char) : List Char :=
  '$' :: intDecimal s.length ++ crlf ++ s ++ crlf

/-- `RESPResponseWriter.WriteNull`: the null frame `$-1\r\n`. -/
def WriteNull : List Char := chars "$-1\r\n"

/-- `RESPResponseWriter.writeLen`: the array header `*<count>\r\n`. -/
def writeLen (n : Int) : List Char :=
  '*' :: intDecimal n ++ crlf

/-- Body of the loop inside `RESPResponseWriter.WriteArray`: an empty string
or the literal `nil` is written as a null frame, anything else as a bulk
string. -/
def encodeElem (s : List Char) : List Char :=
  if s = [] ∨ s = chars "nil" then WriteNull else WriteBulkString s

/-- `RESPResponseWriter.WriteArray`: length header followed by the encoded
elements in order. -/
def WriteArray (strs : List (List Char)) : List Char :=
  writeLen strs.length ++ (strs.map encodeElem).flatten

/-- The error values the decode side can surface: `ErrInvalidSyntax`, a
`strconv.Atoi` failure, or an I/O error from the buffered reader. -/
inductive RespError where
  | invalidSyntax
  | atoiFailure
  | readFailure
deriving DecidableEq

deriving instance DecidableEq for Except

/-- `bufio.Reader.ReadString('\n')`: consume up to and including the first
newline; an exhausted stream is a read error. -/
def readString : List Char → Except RespError (List Char × List Char)
  | [] => .error .readFailure
  | c :: cs =>
    if c = '\n' then .ok ([c], cs)
    else
      match readString cs with
      | .error e => .error e
      | .ok (l, r) => .ok (c :: l, r)

/-- `scanLine`: one protocol line, at least 3 bytes long. -/
def scanLine (input : List Char) : Except RespError (List Char × List Char) :=
  match readString input with
  | .error e => .error e
  | .ok (line, rest) =>
    if line.length < 3 then .error .invalidSyntax else .ok (line, rest)

/-- `scanBulkString`: read a `$`-prefixed length line; a negative length
returns the raw line itself (the null marker); otherwise read exactly
`length + 2` further bytes and return the first `length` of them. -/
def scanBulkString (input : List Char) : Except RespError (List Char × List Char) :=
  match scanLine input with
  | .error e => .error e
  | .ok (line, rest) =>
    if line.head? = some '$' then
      match goAtoi ((line.drop 1).take (line.length - 3)) with
      | .error _ => .error .atoiFailure
      | .ok len =>
        if len < 0 then .ok (line, rest)
        else if rest.length < len.toNat + 2 then .error .readFailure
        else .ok (rest.take len.toNat, rest.drop (len.toNat + 2))
    else .error .invalidSyntax

/-- The element loop of `scanArray`: read `n` bulk-string sub-frames. -/
def scanElements : Nat → List Char → Except RespError (List (List Char) × List Char)
  | 0, input => .ok ([], input)
  | n + 1, input =>
    match scanBulkString input with
    | .error e => .error e
    | .ok (s, rest) =>
      match scanElements n rest with
      | .error e => .error e
      | .ok (elems, rest') => .ok (s :: elems, rest')

/-- `scanArray`: a `*`-prefixed count line followed by that many bulk-string
sub-frames; a non-positive count yields no elements. -/
def scanArray (input : List Char) : Except RespError (List (List Char) × List Char) :=
  match scanLine input with
  | .error e => .error e
  | .ok (line, rest) =>
    if line.length < 3 then .error .invalidSyntax
    else if line.head? = some '*' then
      match goAtoi ((line.drop 1).take (line.length - 3)) with
      | .error _ => .error .atoiFailure
      | .ok len => scanElements len.toNat rest
    else .error .invalidSyntax

/-- `RESPRequestReader.ReadCommand`: decode one array, reject fewer than one
element, upper-case the command name.  The unread remainder of the stream is
returned for sequencing. -/
def ReadCommand (input : List Char) :
    Except RespError (List Char × List (List Char) × List Char) :=
  match scanArray input with
  | .error e => .error e
  | .ok (elements, rest) =>
    match elements with
    | [] => .error .invalidSyntax
    | first :: more => .ok (goToUpper first, more, rest)

/-- A command handler, `func(*Connection, []string)` in the source: given the
argument list it produces the bytes it writes on the connection. -/
def HandlerFn := List (List Char) → List Char

/-- The dispatch-relevant state of `StubServer`: the handler registry, the
processed-command counter and the command history.  `handlerInvocations` is
instrumentation counting calls of a registered handler function. -/
structure ServerState where
  handlers : List (List Char × HandlerFn)
  processedCommands : Nat
  commandsHistory : List (List (List Char))
  handlerInvocations : Nat

/-- The state produced by `NewStubServer`: empty registry, zero counters. -/
def initialState : ServerState :=
  { handlers := []
    processedCommands := 0
    commandsHistory := []
    handlerInvocations := 0 }

/-- Registry lookup, the read side of the `handlers` map. -/
def lookupHandler : List (List Char × HandlerFn) → List Char → Option HandlerFn
  | [], _ => none
  | (k, f) :: rest, key => if k = key then some f else lookupHandler rest key

/-- `StubServer.RegisterCommandHandler`: map assignment under the upper-cased
command name (the association list keeps exactly one binding per key; the
newest binding wins, as for a Go map). -/
def RegisterCommandHandler (st : ServerState) (command : List Char)
    (handler : HandlerFn) : ServerState :=
  { st with handlers :=
      (goToUpper command, handler) ::
        st.handlers.filter (fun p => p.1 ≠ goToUpper command) }

/-- Message of `ErrUnknownCommand`. -/
def errUnknownCommand : List Char := chars "unknown command"

/-- Message of `ErrInvalidSyntax`. -/
def errInvalidSyntax : List Char := chars "invalid RESP protocol syntax"

/-- `StubServer.handleCommand`: look the command up in the registry; a miss
answers with the unknown-command error, a hit increments the counter and
invokes the handler. -/
def handleCommand (st : ServerState) (cmd : List Char) (args : List (List Char)) :
    ServerState × List Char :=
  match lookupHandler st.handlers cmd with
  | none => (st, WriteError errUnknownCommand)
  | some handlerFn =>
    ({ st with
        processedCommands := st.processedCommands + 1
        handlerInvocations := st.handlerInvocations + 1 },
      handlerFn args)

/-- Observable events of the serving loop: one `dispatched` event per
successfully parsed request (with whether a registered handler was invoked),
and `protocolError` when parsing fails and the loop exits. -/
inductive Event where
  | dispatched (cmd : List Char) (args : List (List Char)) (invoked : Bool)
  | protocolError
deriving DecidableEq

/-- Result of serving a connection: final server state, all bytes written on
the connection, and the event trace. -/
structure ServeResult where
  state : ServerState
  output : List Char
  trace : List Event

/-- The loop body of `StubServer.handleConnection`, structurally recursive on
fuel (each successful parse consumes at least one byte, so
`input.length + 1` fuel always suffices). -/
def serveFuel : Nat → ServerState → List Char → ServeResult
  | 0, st, _ => ⟨st, [], []⟩
  | fuel + 1, st, input =>
    match ReadCommand input with
    | .error _ => ⟨st, WriteError errInvalidSyntax, [.protocolError]⟩
    | .ok (cmd, args, rest) =>
      let recorded :=
        { st with commandsHistory := st.commandsHistory ++ [cmd :: args] }
      let step := handleCommand recorded cmd args
      let tail := serveFuel fuel step.1 rest
      ⟨tail.state, step.2 ++ tail.output,
        .dispatched cmd args (lookupHandler st.handlers cmd).isSome :: tail.trace⟩

/-- `StubServer.handleConnection`: parse requests one at a time; each parsed
request is appended to the history and dispatched; a parse error writes the
`ErrInvalidSyntax` error response and terminates the loop. -/
def handleConnection (st : ServerState) (input : List Char) : ServeResult :=
  serveFuel (input.length + 1) st input

/-- The requests a byte stream decodes into, fuelled like `serveFuel`. -/
def parseStreamFuel : Nat → List Char → List (List Char × List (List Char))
  | 0, _ => []
  | fuel + 1, input =>
    match ReadCommand input with
    | .error _ => []
    | .ok (cmd, args, rest) => (cmd, args) :: parseStreamFuel fuel rest

/-- The sequence of successfully parsed requests at the head of a byte
stream, in arrival order. -/
def parseStream (input : List Char) : List (List Char × List (List Char)) :=
  parseStreamFuel (input.length + 1) input

/-- The `COMMAND` handler registered by `StubServer.Start`. -/
def commandHandler : HandlerFn := fun _ => WriteArray [chars "OK"]

/-- The default `PING` handler registered by `StubServer.Start`: echo a single
argument as a bulk string, otherwise answer the simple string `PONG`. -/
def pingHandler : HandlerFn := fun args =>
  if args.length = 1 then WriteBulkString (args.headD [])
  else WriteSimpleString (chars "PONG")

/-- The handler registrations `StubServer.Start` performs (`COMMAND`, then the
default `PING`). -/
def startRegister (st : ServerState) : ServerState :=
  RegisterCommandHandler
    (RegisterCommandHandler st (chars "COMMAND") commandHandler)
    (chars "PING") pingHandler

/-- How many of a request sequence would find a registered handler in the
given registry (their command names are already upper-cased by `ReadCommand`). -/
def dispatchCount (hs : List (List Char × HandlerFn))
    (reqs : List (List Char × List (List Char))) : Nat :=
  (reqs.filter (fun r => (lookupHandler hs r.1).isSome)).length

/-- The responses the dispatch step writes for a request sequence. -/
def responsesFor (hs : List (List Char × HandlerFn))
    (reqs : List (List Char × List (List Char))) : List Char :=
  (reqs.map (fun r =>
    match lookupHandler hs r.1 with
    | none => WriteError errUnknownCommand
    | some handlerFn => handlerFn r.2)).flatten

/-- The dispatch events for a request sequence. -/
def traceFor (hs : List (List Char × HandlerFn))
    (reqs : List (List Char × List (List Char))) : List Event :=
  reqs.map (fun r => .dispatched r.1 r.2 (lookupHandler hs r.1).isSome)

/-- The byte stream a client produces by sending the given requests in order,
each encoded with the array writer. -/
def encodeRequests (reqs : List (List Char × List (List Char))) : List Char :=
  (reqs.map (fun r => WriteArray (r.1 :: r.2))).flatten

/-- Claim-side statement of the whitespace normalisation rule: every
whitespace character becomes a single space, all others are unchanged. -/
def normalizeSpec : List Char → List Char
  | [] => []
  | c :: cs => (if goIsSpace c then ' ' else c) :: normalizeSpec cs

/-- The value an element of an encoded array decodes back to: non-null
elements reproduce themselves, null-encoded elements decode to the raw null
frame line. -/
def decodedElem (s : List Char) : List Char :=
  if s = [] ∨ s = chars "nil" then chars "$-1\r\n" else s

theorem digitChar_isDigit (d : Nat) (h : d < 10) : isDigit (digitChar d) = true := by
  interval_cases d <;> decide

theorem digitChar_toNat (d : Nat) (h : d < 10) : (digitChar d).toNat = 48 + d := by
  interval_cases d <;> decide

theorem digitsVal_append_digit (l : List Char) (c : Char) :
    digitsVal (l ++ [c]) = digitsVal l * 10 + (c.toNat - 48) := by
  simp [digitsVal, List.foldl_append]

theorem natDecimalAux_spec : ∀ fuel n, n < 10 ^ fuel →
    (natDecimalAux fuel n).all isDigit = true ∧ digitsVal (natDecimalAux fuel n) = n := by
  intro fuel
  induction fuel with
  | zero =>
    intro n h
    interval_cases n
    exact ⟨rfl, rfl⟩
  | succ f ih =>
    intro n h
    match n with
    | 0 => exact ⟨rfl, rfl⟩
    | m + 1 =>
      have hk : m + 1 < 10 ^ f * 10 := by rw [pow_succ] at h; omega
      have hdiv : (m + 1) / 10 < 10 ^ f := by omega
      obtain ⟨ha, hv⟩ := ih ((m + 1) / 10) hdiv
      have hd : (m + 1) % 10 < 10 := Nat.mod_lt _ (by norm_num)
      refine ⟨?_, ?_⟩
      · rw [natDecimalAux, List.all_append]
        simp [ha, digitChar_isDigit _ hd]
      · rw [natDecimalAux, digitsVal_append_digit]
        rw [show digitsVal (natDecimalAux f ((m + 1) / 10)) = (m + 1) / 10 from hv]
        rw [digitChar_toNat _ hd]
        omega

theorem natDecimal_all_digits (n : Nat) : (natDecimal n).all isDigit = true := by
  unfold natDecimal
  split
  · rfl
  · exact (natDecimalAux_spec n n (Nat.lt_pow_self (by norm_num) n)).1

theorem digitsVal_natDecimal (n : Nat) : digitsVal (natDecimal n) = n := by
  unfold natDecimal
  split
  · simp_all [digitsVal]
  · exact (natDecimalAux_spec n n (Nat.lt_pow_self (by norm_num) n)).2

theorem natDecimal_ne_nil (n : Nat) : natDecimal n ≠ [] := by
  unfold natDecimal
  split
  · simp
  · next h =>
    obtain ⟨m, rfl⟩ := Nat.exists_eq_succ_of_ne_zero h
    rw [natDecimalAux]
    simp

theorem not_mem_of_all_digits {l : List Char} (h : l.all isDigit = true) {c : Char}
    (hc : isDigit c = false) : c ∉ l := by
  intro hm
  rw [List.all_eq_true] at h
  have := h c hm
  rw [hc] at this
  exact Bool.noConfusion this

theorem newline_not_mem_natDecimal (n : Nat) : '\n' ∉ natDecimal n :=
  not_mem_of_all_digits (natDecimal_all_digits n) (by decide)

theorem newline_not_mem_intDecimal (i : Int) : '\n' ∉ intDecimal i := by
  unfold intDecimal
  split
  · intro hm
    rcases List.mem_cons.mp hm with h | h
    · exact absurd h (by decide)
    · exact newline_not_mem_natDecimal _ h
  · exact newline_not_mem_natDecimal _

theorem intDecimal_ne_nil (i : Int) : intDecimal i ≠ [] := by
  unfold intDecimal
  split
  · simp
  · exact natDecimal_ne_nil _

theorem intDecimal_coe_nat (n : Nat) : intDecimal (n : Int) = natDecimal n := by
  unfold intDecimal
  rw [if_neg (by omega), Int.natAbs_ofNat]

theorem goAtoi_natDecimal (n : Nat) (h : n ≤ 2 ^ 63 - 1) :
    goAtoi (natDecimal n) = .ok (n : Int) := by
  obtain ⟨c, cs, hcc⟩ := List.exists_cons_of_ne_nil (natDecimal_ne_nil n)
  have hall := natDecimal_all_digits n
  have hval := digitsVal_natDecimal n
  rw [hcc] at hall hval ⊢
  have hc : isDigit c = true := by
    rw [List.all_cons, Bool.and_eq_true] at hall
    exact hall.1
  have hcm : ¬(c = '-' ∨ c = '+') := by
    rintro (rfl | rfl) <;> exact absurd hc (by decide)
  have hcminus : c ≠ '-' := fun hh => hcm (Or.inl hh)
  rw [goAtoi, if_neg hcm]
  rw [if_neg (List.cons_ne_nil c cs)]
  rw [if_pos hall]
  simp only [if_neg hcminus, hval]
  rw [if_neg (by push_cast; omega)]

theorem goAtoi_intDecimal (i : Int) (h1 : -(2 ^ 63) ≤ i) (h2 : i ≤ 2 ^ 63 - 1) :
    goAtoi (intDecimal i) = .ok i := by
  by_cases hneg : i < 0
  · rw [intDecimal, if_pos hneg]
    have hall := natDecimal_all_digits i.natAbs
    have hval := digitsVal_natDecimal i.natAbs
    have hne := natDecimal_ne_nil i.natAbs
    rw [goAtoi, if_pos (Or.inl rfl), if_neg hne, if_pos hall]
    simp only [eq_self_iff_true, if_true, hval]
    rw [if_neg (by omega)]
    congr 1
    omega
  · rw [intDecimal, if_neg hneg]
    have : (i.natAbs : Int) = i := Int.natAbs_of_nonneg (by omega)
    rw [goAtoi_natDecimal i.natAbs (by omega), this]

theorem readString_of_append (pre rest : List Char) (h : '\n' ∉ pre) :
    readString (pre ++ '\n' :: rest) = .ok (pre ++ ['\n'], rest) := by
  induction pre with
  | nil => simp [readString]
  | cons c cs ih =>
    have hc : c ≠ '\n' := fun hcc => h (hcc ▸ List.mem_cons_self c cs)
    have h' : '\n' ∉ cs := fun hm => h (List.mem_cons_of_mem _ hm)
    simp [readString, hc, ih h']

theorem readString_split : ∀ {input l r : List Char},
    readString input = .ok (l, r) → input = l ++ r ∧ l ≠ [] := by
  intro input
  induction input with
  | nil => intro l r h; exact absurd h (by simp [readString])
  | cons c cs ih =>
    intro l r h
    rw [readString] at h
    by_cases hc : c = '\n'
    · rw [if_pos hc] at h
      simp only [Except.ok.injEq, Prod.mk.injEq] at h
      obtain ⟨rfl, rfl⟩ := h
      exact ⟨rfl, by simp⟩
    · rw [if_neg hc] at h
      cases hm : readString cs with
      | error e => simp only [hm] at h; exact absurd h (by simp)
      | ok p =>
        obtain ⟨l0, r0⟩ := p
        simp only [hm, Except.ok.injEq, Prod.mk.injEq] at h
        obtain ⟨rfl, rfl⟩ := h
        obtain ⟨heq, -⟩ := ih hm
        exact ⟨by rw [heq]; rfl, by simp⟩

theorem scanLine_of_append (pre rest : List Char) (h : '\n' ∉ pre)
    (hlen : 2 ≤ pre.length) :
    scanLine (pre ++ '\n' :: rest) = .ok (pre ++ ['\n'], rest) := by
  simp only [scanLine, readString_of_append pre rest h]
  rw [if_neg (by simp; omega)]

theorem scanLine_split {input l r : List Char} (h : scanLine input = .ok (l, r)) :
    input = l ++ r ∧ 3 ≤ l.length := by
  rw [scanLine] at h
  cases hm : readString input with
  | error e => simp only [hm] at h; exact absurd h (by simp)
  | ok p =>
    obtain ⟨line, rest⟩ := p
    simp only [hm] at h
    by_cases hl : line.length < 3
    · rw [if_pos hl] at h; exact absurd h (by simp)
    · rw [if_neg hl] at h
      simp only [Except.ok.injEq, Prod.mk.injEq] at h
      obtain ⟨rfl, rfl⟩ := h
      exact ⟨(readString_split hm).1, by omega⟩

theorem scanBulkString_consumed {input s r : List Char}
    (h : scanBulkString input = .ok (s, r)) : r.length < input.length := by
  rw [scanBulkString] at h
  cases hm : scanLine input with
  | error e => simp only [hm] at h; exact absurd h (by simp)
  | ok p =>
    obtain ⟨line, rest⟩ := p
    simp only [hm] at h
    obtain ⟨heq, hlen⟩ := scanLine_split hm
    have hrest : rest.length + 3 ≤ input.length := by
      rw [heq, List.length_append]; omega
    by_cases hh : line.head? = some '$'
    · rw [if_pos hh] at h
      cases ha : goAtoi ((line.drop 1).take (line.length - 3)) with
      | error e => simp only [ha] at h; exact absurd h (by simp)
      | ok len =>
        simp only [ha] at h
        by_cases hneg : len < 0
        · rw [if_pos hneg] at h
          simp only [Except.ok.injEq, Prod.mk.injEq] at h
          obtain ⟨rfl, rfl⟩ := h
          omega
        · rw [if_neg hneg] at h
          by_cases hshort : rest.length < len.toNat + 2
          · rw [if_pos hshort] at h; exact absurd h (by simp)
          · rw [if_neg hshort] at h
            simp only [Except.ok.injEq, Prod.mk.injEq] at h
            obtain ⟨rfl, rfl⟩ := h
            have := List.length_drop (len.toNat + 2) rest
            omega
    · rw [if_neg hh] at h; exact absurd h (by simp)

theorem scanElements_consumed : ∀ {n : Nat} {input : List Char}
    {es : List (List Char)} {r : List Char},
    scanElements n input = .ok (es, r) → r.length ≤ input.length := by
  intro n
  induction n with
  | zero =>
    intro input es r h
    rw [scanElements] at h
    simp only [Except.ok.injEq, Prod.mk.injEq] at h
    obtain ⟨-, rfl⟩ := h
    exact le_rfl
  | succ m ih =>
    intro input es r h
    rw [scanElements] at h
    cases hb : scanBulkString input with
    | error e => simp only [hb] at h; exact absurd h (by simp)
    | ok p =>
      obtain ⟨s, rest⟩ := p
      simp only [hb] at h
      cases he : scanElements m rest with
      | error e => simp only [he] at h; exact absurd h (by simp)
      | ok q =>
        obtain ⟨elems, rest'⟩ := q
        simp only [he, Except.ok.injEq, Prod.mk.injEq] at h
        obtain ⟨-, rfl⟩ := h
        exact le_trans (ih he) (le_of_lt (scanBulkString_consumed hb))

theorem scanArray_consumed {input : List Char} {es : List (List Char)} {r : List Char}
    (h : scanArray input = .ok (es, r)) : r.length < input.length := by
  rw [scanArray] at h
  cases hm : scanLine input with
  | error e => simp only [hm] at h; exact absurd h (by simp)
  | ok p =>
    obtain ⟨line, rest⟩ := p
    simp only [hm] at h
    obtain ⟨heq, hlen⟩ := scanLine_split hm
    have hrest : rest.length + 3 ≤ input.length := by
      rw [heq, List.length_append]; omega
    by_cases hl : line.length < 3
    · rw [if_pos hl] at h; exact absurd h (by simp)
    · rw [if_neg hl] at h
      by_cases hh : line.head? = some '*'
      · rw [if_pos hh] at h
        cases ha : goAtoi ((line.drop 1).take (line.length - 3)) with
        | error e => simp only [ha] at h; exact absurd h (by simp)
        | ok len =>
          simp only [ha] at h
          have := scanElements_consumed h
          omega
      · rw [if_neg hh] at h; exact absurd h (by simp)

theorem readCommand_consumed {input cmd : List Char} {args : List (List Char)}
    {rest : List Char} (h : ReadCommand input = .ok (cmd, args, rest)) :
    rest.length < input.length := by
  rw [ReadCommand] at h
  cases hm : scanArray input with
  | error e => simp only [hm] at h; exact absurd h (by simp)
  | ok p =>
    obtain ⟨elements, r⟩ := p
    simp only [hm] at h
    cases elements with
    | nil => exact absurd h (by simp)
    | cons first more =>
      simp only [Except.ok.injEq, Prod.mk.injEq] at h
      obtain ⟨-, -, rfl⟩ := h
      exact scanArray_consumed hm

theorem scanBulkString_reads (payload : List Char) (c1 c2 : Char) (extra : List Char)
    (h : payload.length ≤ 2 ^ 63 - 1) :
    scanBulkString ('$' :: natDecimal payload.length ++ crlf ++
        (payload ++ c1 :: c2 :: extra)) = .ok (payload, extra) := by
  have hpre : '\n' ∉ ('$' :: natDecimal payload.length ++ ['\r']) := by
    intro hm
    rcases List.mem_cons.mp hm with hx | hx
    · exact absurd hx (by decide)
    · rcases List.mem_append.mp hx with hy | hy
      · exact newline_not_mem_natDecimal _ hy
      · simp at hy
  have hlen2 : 2 ≤ ('$' :: natDecimal payload.length ++ ['\r']).length := by
    simp
  have hsplit : '$' :: natDecimal payload.length ++ crlf ++ (payload ++ c1 :: c2 :: extra)
      = ('$' :: natDecimal payload.length ++ ['\r']) ++
          '\n' :: (payload ++ c1 :: c2 :: extra) := by
    simp [crlf]
  rw [hsplit]
  simp only [scanBulkString,
    scanLine_of_append _ _ hpre hlen2]
  have hline : ('$' :: natDecimal payload.length ++ ['\r']) ++ ['\n']
      = '$' :: (natDecimal payload.length ++ ['\r', '\n']) := by simp
  rw [hline]
  rw [if_pos (by rw [List.head?_cons])]
  have hslice : (('$' :: (natDecimal payload.length ++ ['\r', '\n'])).drop 1).take
      (('$' :: (natDecimal payload.length ++ ['\r', '\n'])).length - 3)
      = natDecimal payload.length := by
    rw [List.drop_one, List.tail_cons]
    have : ('$' :: (natDecimal payload.length ++ ['\r', '\n'])).length - 3
        = (natDecimal payload.length).length := by simp
    rw [this]
    exact List.take_left _ _
  rw [hslice]
  simp only [goAtoi_natDecimal _ h]
  rw [if_neg (by omega)]
  rw [show ((payload.length : Int)).toNat = payload.length from Int.toNat_ofNat _]
  have hrlen : ¬((payload ++ c1 :: c2 :: extra).length < payload.length + 2) := by
    simp
  rw [if_neg hrlen]
  have htake : (payload ++ c1 :: c2 :: extra).take payload.length = payload :=
    List.take_left _ _
  have hdrop : (payload ++ c1 :: c2 :: extra).drop (payload.length + 2) = extra := by
    have : payload ++ c1 :: c2 :: extra = (payload ++ [c1, c2]) ++ extra := by simp
    rw [this]
    exact List.drop_left' (by simp)
  rw [htake, hdrop]

theorem scanBulkString_writeBulk (s rest : List Char) (h : s.length ≤ 2 ^ 63 - 1) :
    scanBulkString (WriteBulkString s ++ rest) = .ok (s, rest) := by
  have : WriteBulkString s ++ rest
      = '$' :: natDecimal s.length ++ crlf ++ (s ++ '\r' :: '\n' :: rest) := by
    simp [WriteBulkString, intDecimal_coe_nat, crlf]
  rw [this]
  exact scanBulkString_reads s '\r' '\n' rest h

theorem scanBulkString_writeNull (rest : List Char) :
    scanBulkString (WriteNull ++ rest) = .ok (chars "$-1\r\n", rest) := by
  rfl

theorem scanElements_encode : ∀ (xs : List (List Char)) (rest : List Char),
    (∀ s ∈ xs, s.length ≤ 2 ^ 63 - 1) →
    scanElements xs.length ((xs.map encodeElem).flatten ++ rest)
      = .ok (xs.map decodedElem, rest) := by
  intro xs
  induction xs with
  | nil => intro rest hb; simp [scanElements]
  | cons s xs ih =>
    intro rest hb
    have hs : s.length ≤ 2 ^ 63 - 1 := hb s (List.mem_cons_self s xs)
    have hxs : ∀ t ∈ xs, t.length ≤ 2 ^ 63 - 1 :=
      fun t ht => hb t (List.mem_cons_of_mem _ ht)
    have hflat : ((s :: xs).map encodeElem).flatten ++ rest
        = encodeElem s ++ ((xs.map encodeElem).flatten ++ rest) := by simp
    rw [List.length_cons, hflat, scanElements]
    by_cases hnull : s = [] ∨ s = chars "nil"
    · have henc : encodeElem s = WriteNull := by rw [encodeElem, if_pos hnull]
      have hdec : decodedElem s = chars "$-1\r\n" := by rw [decodedElem, if_pos hnull]
      rw [henc]
      simp only [scanBulkString_writeNull, ih rest hxs]
      simp [hdec]
    · have henc : encodeElem s = WriteBulkString s := by rw [encodeElem, if_neg hnull]
      have hdec : decodedElem s = s := by rw [decodedElem, if_neg hnull]
      rw [henc]
      simp only [scanBulkString_writeBulk s _ hs, ih rest hxs]
      simp [hdec]

theorem scanArray_encode (xs : List (List Char)) (rest : List Char)
    (hb : ∀ s ∈ xs, s.length ≤ 2 ^ 63 - 1) (hn : xs.length ≤ 2 ^ 63 - 1) :
    scanArray (WriteArray xs ++ rest) = .ok (xs.map decodedElem, rest) := by
  have hpre : '\n' ∉ ('*' :: natDecimal xs.length ++ ['\r']) := by
    intro hm
    rcases List.mem_cons.mp hm with hx | hx
    · exact absurd hx (by decide)
    · rcases List.mem_append.mp hx with hy | hy
      · exact newline_not_mem_natDecimal _ hy
      · simp at hy
  have hlen2 : 2 ≤ ('*' :: natDecimal xs.length ++ ['\r']).length := by simp
  have hsplit : WriteArray xs ++ rest
      = ('*' :: natDecimal xs.length ++ ['\r']) ++
          '\n' :: ((xs.map encodeElem).flatten ++ rest) := by
    simp [WriteArray, writeLen, intDecimal_coe_nat, crlf]
  rw [hsplit]
  simp only [scanArray, scanLine_of_append _ _ hpre hlen2]
  have hline : ('*' :: natDecimal xs.length ++ ['\r']) ++ ['\n']
      = '*' :: (natDecimal xs.length ++ ['\r', '\n']) := by simp
  rw [hline]
  rw [if_neg (by simp)]
  rw [if_pos (by rw [List.head?_cons])]
  have hslice : (('*' :: (natDecimal xs.length ++ ['\r', '\n'])).drop 1).take
      (('*' :: (natDecimal xs.length ++ ['\r', '\n'])).length - 3)
      = natDecimal xs.length := by
    rw [List.drop_one, List.tail_cons]
    have : ('*' :: (natDecimal xs.length ++ ['\r', '\n'])).length - 3
        = (natDecimal xs.length).length := by simp
    rw [this]
    exact List.take_left _ _
  rw [hslice]
  simp only [goAtoi_natDecimal _ hn]
  rw [show ((xs.length : Int)).toNat = xs.length from Int.toNat_ofNat _]
  exact scanElements_encode xs rest hb

theorem readCommand_encode (c : List Char) (a : List (List Char)) (rest : List Char)
    (hnn : ∀ s ∈ c :: a, ¬(s = [] ∨ s = chars "nil") ∧ s.length ≤ 2 ^ 63 - 1)
    (hcount : a.length + 1 ≤ 2 ^ 63 - 1) :
    ReadCommand (WriteArray (c :: a) ++ rest) = .ok (goToUpper c, a, rest) := by
  have hbound : ∀ s ∈ c :: a, s.length ≤ 2 ^ 63 - 1 := fun s hs => (hnn s hs).2
  have hmap : (c :: a).map decodedElem = c :: a := by
    have : ∀ s ∈ c :: a, decodedElem s = s := fun s hs => by
      rw [decodedElem, if_neg (hnn s hs).1]
    calc (c :: a).map decodedElem = (c :: a).map id := List.map_congr_left this
      _ = c :: a := List.map_id _
  have hcount' : (c :: a).length ≤ 2 ^ 63 - 1 := by
    rw [List.length_cons]; exact hcount
  simp only [ReadCommand, scanArray_encode (c :: a) rest hbound hcount', hmap]

theorem parseStreamFuel_congr : ∀ (n f1 f2 : Nat) (input : List Char),
    input.length ≤ n → input.length < f1 → input.length < f2 →
    parseStreamFuel f1 input = parseStreamFuel f2 input := by
  intro n
  induction n with
  | zero =>
    intro f1 f2 input h h1 h2
    have hnil : input = [] := List.eq_nil_of_length_eq_zero (Nat.le_zero.mp h)
    subst hnil
    obtain ⟨g1, rfl⟩ : ∃ g, f1 = g + 1 := ⟨f1 - 1, by omega⟩
    obtain ⟨g2, rfl⟩ : ∃ g, f2 = g + 1 := ⟨f2 - 1, by omega⟩
    rw [parseStreamFuel, parseStreamFuel]
    simp only [show ReadCommand ([] : List Char) = .error .readFailure from rfl]
  | succ m ih =>
    intro f1 f2 input h h1 h2
    obtain ⟨g1, rfl⟩ : ∃ g, f1 = g + 1 := ⟨f1 - 1, by omega⟩
    obtain ⟨g2, rfl⟩ : ∃ g, f2 = g + 1 := ⟨f2 - 1, by omega⟩
    rw [parseStreamFuel, parseStreamFuel]
    cases hr : ReadCommand input with
    | error e => simp only [hr]
    | ok p =>
      obtain ⟨cmd, args, rest⟩ := p
      simp only [hr]
      have hlt := readCommand_consumed hr
      rw [ih g1 g2 rest (by omega) (by omega) (by omega)]

theorem parseStream_nil {input : List Char} {e : RespError}
    (h : ReadCommand input = .error e) : parseStream input = [] := by
  rw [parseStream, parseStreamFuel]
  simp only [h]

theorem parseStream_cons {input cmd : List Char} {args : List (List Char)}
    {rest : List Char} (h : ReadCommand input = .ok (cmd, args, rest)) :
    parseStream input = (cmd, args) :: parseStream rest := by
  rw [parseStream, parseStreamFuel]
  simp only [h]
  have hlt := readCommand_consumed h
  rw [parseStreamFuel_congr rest.length input.length (rest.length + 1) rest
    le_rfl (by omega) (by omega)]
  rfl

theorem dispatchCount_cons (hs : List (List Char × HandlerFn)) (cmd : List Char)
    (args : List (List Char)) (ps : List (List Char × List (List Char))) :
    dispatchCount hs ((cmd, args) :: ps)
      = (if (lookupHandler hs cmd).isSome then 1 else 0) + dispatchCount hs ps := by
  rw [dispatchCount, dispatchCount, List.filter_cons]
  split
  · rw [List.length_cons]; omega
  · omega

theorem responsesFor_cons (hs : List (List Char × HandlerFn)) (cmd : List Char)
    (args : List (List Char)) (ps : List (List Char × List (List Char))) :
    responsesFor hs ((cmd, args) :: ps)
      = (match lookupHandler hs cmd with
          | none => WriteError errUnknownCommand
          | some handlerFn => handlerFn args) ++ responsesFor hs ps := by
  rw [responsesFor, responsesFor, List.map_cons, List.flatten_cons]

theorem traceFor_cons (hs : List (List Char × HandlerFn)) (cmd : List Char)
    (args : List (List Char)) (ps : List (List Char × List (List Char))) :
    traceFor hs ((cmd, args) :: ps)
      = .dispatched cmd args (lookupHandler hs cmd).isSome :: traceFor hs ps := by
  rw [traceFor, traceFor, List.map_cons]

theorem serveFuel_spec : ∀ (n : Nat) (input : List Char) (st : ServerState) (fuel : Nat),
    input.length ≤ n → input.length < fuel →
    (serveFuel fuel st input).state.handlers = st.handlers ∧
    (serveFuel fuel st input).state.processedCommands
      = st.processedCommands + dispatchCount st.handlers (parseStream input) ∧
    (serveFuel fuel st input).state.commandsHistory
      = st.commandsHistory ++ (parseStream input).map (fun r => r.1 :: r.2) ∧
    (serveFuel fuel st input).state.handlerInvocations
      = st.handlerInvocations + dispatchCount st.handlers (parseStream input) ∧
    (serveFuel fuel st input).output
      = responsesFor st.handlers (parseStream input) ++ WriteError errInvalidSyntax ∧
    (serveFuel fuel st input).trace
      = traceFor st.handlers (parseStream input) ++ [Event.protocolError] := by
  intro n
  induction n with
  | zero =>
    intro input st fuel h hf
    have hnil : input = [] := List.eq_nil_of_length_eq_zero (Nat.le_zero.mp h)
    subst hnil
    obtain ⟨g, rfl⟩ : ∃ g, fuel = g + 1 := ⟨fuel - 1, by omega⟩
    have hps : parseStream ([] : List Char) = [] :=
      parseStream_nil (e := .readFailure) rfl
    rw [serveFuel]
    simp only [show ReadCommand ([] : List Char) = .error .readFailure from rfl]
    simp [hps, dispatchCount, responsesFor, traceFor]
  | succ m ih =>
    intro input st fuel h hf
    obtain ⟨g, rfl⟩ : ∃ g, fuel = g + 1 := ⟨fuel - 1, by omega⟩
    rw [serveFuel]
    cases hr : ReadCommand input with
    | error e =>
      simp only [hr]
      rw [parseStream_nil hr]
      simp [dispatchCount, responsesFor, traceFor]
    | ok p =>
      obtain ⟨cmd, args, rest⟩ := p
      simp only [hr]
      have hlt := readCommand_consumed hr
      rw [parseStream_cons hr]
      cases hl : lookupHandler st.handlers cmd with
      | none =>
        simp only [handleCommand, hl]
        refine ⟨?_, ?_, ?_, ?_, ?_, ?_⟩
        · rw [(ih rest _ g (by omega) (by omega)).1]
        · rw [(ih rest _ g (by omega) (by omega)).2.1, dispatchCount_cons]
          simp [hl]
        · rw [(ih rest _ g (by omega) (by omega)).2.2.1]
          simp
        · rw [(ih rest _ g (by omega) (by omega)).2.2.2.1, dispatchCount_cons]
          simp [hl]
        · rw [(ih rest _ g (by omega) (by omega)).2.2.2.2.1, responsesFor_cons]
          simp [hl]
        · rw [(ih rest _ g (by omega) (by omega)).2.2.2.2.2, traceFor_cons]
          simp [hl]
      | some handlerFn =>
        simp only [handleCommand, hl]
        refine ⟨?_, ?_, ?_, ?_, ?_, ?_⟩
        · rw [(ih rest _ g (by omega) (by omega)).1]
        · rw [(ih rest _ g (by omega) (by omega)).2.1, dispatchCount_cons]
          simp [hl]
          omega
        · rw [(ih rest _ g (by omega) (by omega)).2.2.1]
          simp
        · rw [(ih rest _ g (by omega) (by omega)).2.2.2.1, dispatchCount_cons]
          simp [hl]
          omega
        · rw [(ih rest _ g (by omega) (by omega)).2.2.2.2.1, responsesFor_cons]
          simp [hl]
        · rw [(ih rest _ g (by omega) (by omega)).2.2.2.2.2, traceFor_cons]
          simp [hl]

theorem handleConnection_spec (st : ServerState) (input : List Char) :
    (handleConnection st input).state.handlers = st.handlers ∧
    (handleConnection st input).state.processedCommands
      = st.processedCommands + dispatchCount st.handlers (parseStream input) ∧
    (handleConnection st input).state.commandsHistory
      = st.commandsHistory ++ (parseStream input).map (fun r => r.1 :: r.2) ∧
    (handleConnection st input).state.handlerInvocations
      = st.handlerInvocations + dispatchCount st.handlers (parseStream input) ∧
    (handleConnection st input).output
      = responsesFor st.handlers (parseStream input) ++ WriteError errInvalidSyntax ∧
    (handleConnection st input).trace
      = traceFor st.handlers (parseStream input) ++ [Event.protocolError] :=
  serveFuel_spec input.length input st (input.length + 1) le_rfl (by omega)

theorem inlineText_eq_normalizeSpec : ∀ l : List Char, inlineText l = normalizeSpec l := by
  intro l
  induction l with
  | nil => rfl
  | cons c cs ih => rw [inlineText, List.map_cons, normalizeSpec, ← ih, inlineText]

theorem filter_key_after_erase (l : List (List Char × HandlerFn)) (key : List Char) :
    ((l.filter (fun p => p.1 ≠ key)).filter (fun p => p.1 = key)) = [] := by
  induction l with
  | nil => rfl
  | cons p ps ih =>
    by_cases hp : p.1 = key
    · simp [List.filter_cons, hp, ih]
    · simp [List.filter_cons, hp, ih]

theorem parseStream_encodeRequests :
    ∀ (reqs : List (List Char × List (List Char))),
    (∀ r ∈ reqs, (∀ s ∈ r.1 :: r.2, ¬(s = [] ∨ s = chars "nil") ∧
        s.length ≤ 2 ^ 63 - 1) ∧ r.2.length + 1 ≤ 2 ^ 63 - 1) →
    parseStream (encodeRequests reqs) = reqs.map (fun r => (goToUpper r.1, r.2)) := by
  intro reqs
  induction reqs with
  | nil =>
    intro hreq
    have : encodeRequests [] = [] := rfl
    rw [this]
    exact parseStream_nil (e := .readFailure) rfl
  | cons r rs ih =>
    intro hreq
    have hr := hreq r (List.mem_cons_self r rs)
    have hrs : ∀ q ∈ rs, (∀ s ∈ q.1 :: q.2, ¬(s = [] ∨ s = chars "nil") ∧
        s.length ≤ 2 ^ 63 - 1) ∧ q.2.length + 1 ≤ 2 ^ 63 - 1 :=
      fun q hq => hreq q (List.mem_cons_of_mem _ hq)
    have hflat : encodeRequests (r :: rs)
        = WriteArray (r.1 :: r.2) ++ encodeRequests rs := by
      simp [encodeRequests]
    have hread : ReadCommand (encodeRequests (r :: rs))
        = .ok (goToUpper r.1, r.2, encodeRequests rs) := by
      rw [hflat]
      exact readCommand_encode r.1 r.2 (encodeRequests rs) hr.1 hr.2
    rw [parseStream_cons hread, ih hrs, List.map_cons]

/-- C1 counterexample: encoding the single-element list containing the empty
string with `WriteArray` and decoding with `scanArray` does not yield the
empty string back; the null frame decodes to the raw line `$-1\r\n`. -/
theorem writeArray_scanArray_empty_cex :
    scanArray (WriteArray [[]]) = .ok ([chars "$-1\r\n"], []) ∧
    scanArray (WriteArray [[]]) ≠ .ok ([([] : List Char)], ([] : List Char)) := by
  exact ⟨by decide, by decide⟩

/-- C1 (amended): for every list of strings whose lengths fit in an int64,
writing with `WriteArray` and decoding the bytes with `scanArray` yields the
elements back exactly, except that elements equal to the empty string or the
literal `nil` (encoded as null frames) come back as `scanBulkString`'s
null-frame result, the raw line `$-1\r\n`, rather than the original. -/
theorem writeArray_scanArray_roundtrip (xs : List (List Char))
    (hb : ∀ s ∈ xs, s.length ≤ 2 ^ 63 - 1) (hn : xs.length ≤ 2 ^ 63 - 1) :
    scanArray (WriteArray xs) = .ok (xs.map decodedElem, []) := by
  have h := scanArray_encode xs [] hb hn
  rwa [List.append_nil] at h

/-- Witness for the amended C1 round-trip at a concrete list containing a
normal element and a null-encoded element. -/
theorem writeArray_scanArray_roundtrip_witness :
    (∀ s ∈ [chars "GET", chars "key", []], s.length ≤ 2 ^ 63 - 1) ∧
    ([chars "GET", chars "key", []] : List (List Char)).length ≤ 2 ^ 63 - 1 ∧
    scanArray (WriteArray [chars "GET", chars "key", []])
      = .ok ([chars "GET", chars "key", []].map decodedElem, []) :=
  ⟨by decide, by decide,
    writeArray_scanArray_roundtrip [chars "GET", chars "key", []]
      (by decide) (by decide)⟩

/-- C2 counterexample: the request `FOO` parses successfully and is
dispatched, but with an empty handler registry no handler is invoked, so a
successfully parsed request does not imply a handler invocation regardless
of registry contents. -/
theorem parsed_without_handler_no_invocation_cex :
    (handleConnection initialState (chars "*1\r\n$3\r\nFOO\r\n")).trace
      = [.dispatched (chars "FOO") [] false, .protocolError] ∧
    (handleConnection initialState
      (chars "*1\r\n$3\r\nFOO\r\n")).state.handlerInvocations = 0 ∧
    (handleConnection initialState
      (chars "*1\r\n$3\r\nFOO\r\n")).state.commandsHistory = [[chars "FOO"]] := by
  exact ⟨by decide, by decide, by decide⟩

/-- C2 (amended): the serving loop emits exactly one dispatch event per
successfully parsed request, invoking a handler for it exactly when its
(upper-cased) command name is registered, and ends with a single protocol
error event for the unparseable remainder, for which no handler runs; the
handler-invocation count grows by exactly the number of parsed requests
whose command was registered. -/
theorem handleConnection_one_dispatch_per_request (st : ServerState)
    (input : List Char) :
    (handleConnection st input).trace
      = traceFor st.handlers (parseStream input) ++ [Event.protocolError] ∧
    (handleConnection st input).state.handlerInvocations
      = st.handlerInvocations + dispatchCount st.handlers (parseStream input) :=
  ⟨(handleConnection_spec st input).2.2.2.2.2,
    (handleConnection_spec st input).2.2.2.1⟩

/-- C3: the processed-command counter grows by exactly the number of parsed
requests whose upper-cased command name had a registered handler; every
parsed request (registered or not) is appended to the command history; an
unregistered command is answered with the unknown-command error response. -/
theorem processedCommands_counts_registered (st : ServerState) (input : List Char) :
    (handleConnection st input).state.processedCommands
      = st.processedCommands + dispatchCount st.handlers (parseStream input) ∧
    (handleConnection st input).state.commandsHistory
      = st.commandsHistory ++ (parseStream input).map (fun r => r.1 :: r.2) ∧
    (handleConnection st input).output
      = responsesFor st.handlers (parseStream input) ++ WriteError errInvalidSyntax :=
  ⟨(handleConnection_spec st input).2.1,
    (handleConnection_spec st input).2.2.1,
    (handleConnection_spec st input).2.2.2.2.1⟩

/-- C4: when `ParseRequest` fails, the server writes exactly one
protocol-error response (`ErrInvalidSyntax`) and stops: nothing is recorded
in the history, no counter moves, no handler is invoked, and no further
request is processed on that connection. -/
theorem parse_error_terminates (st : ServerState) (input : List Char)
    (e : RespError) (h : ReadCommand input = .error e) :
    (handleConnection st input).output = WriteError errInvalidSyntax ∧
    (handleConnection st input).trace = [Event.protocolError] ∧
    (handleConnection st input).state.commandsHistory = st.commandsHistory ∧
    (handleConnection st input).state.processedCommands = st.processedCommands ∧
    (handleConnection st input).state.handlerInvocations = st.handlerInvocations := by
  have hs := handleConnection_spec st input
  rw [parseStream_nil h] at hs
  obtain ⟨-, h2, h3, h4, h5, h6⟩ := hs
  refine ⟨?_, ?_, ?_, ?_, ?_⟩
  · rw [h5]; simp [responsesFor]
  · rw [h6]; simp [traceFor]
  · rw [h3]; simp
  · rw [h2]; simp [dispatchCount]
  · rw [h4]; simp [dispatchCount]

/-- Witness for C4 at the spec's truncated frame, with no handlers
registered. -/
theorem parse_error_terminates_witness :
    ReadCommand (chars "*2\r\n$3\r\nfoo") = .error RespError.readFailure ∧
    ((handleConnection initialState (chars "*2\r\n$3\r\nfoo")).output
        = WriteError errInvalidSyntax ∧
      (handleConnection initialState (chars "*2\r\n$3\r\nfoo")).trace
        = [Event.protocolError] ∧
      (handleConnection initialState
        (chars "*2\r\n$3\r\nfoo")).state.commandsHistory
        = initialState.commandsHistory ∧
      (handleConnection initialState
        (chars "*2\r\n$3\r\nfoo")).state.processedCommands
        = initialState.processedCommands ∧
      (handleConnection initialState
        (chars "*2\r\n$3\r\nfoo")).state.handlerInvocations
        = initialState.handlerInvocations) :=
  ⟨by decide, parse_error_terminates initialState (chars "*2\r\n$3\r\nfoo")
    RespError.readFailure (by decide)⟩

/-- C5: for every sequence of requests sent on one connection (well-formed:
every element non-empty, not the literal `nil`, and lengths within int64),
the entries appended to the command history are exactly those requests, one
per request, in send order (with the command name upper-cased, as the
serving loop records it). -/
theorem history_in_send_order (st : ServerState)
    (reqs : List (List Char × List (List Char)))
    (hreq : ∀ r ∈ reqs, (∀ s ∈ r.1 :: r.2, ¬(s = [] ∨ s = chars "nil") ∧
        s.length ≤ 2 ^ 63 - 1) ∧ r.2.length + 1 ≤ 2 ^ 63 - 1) :
    (handleConnection st (encodeRequests reqs)).state.commandsHistory
      = st.commandsHistory ++ reqs.map (fun r => goToUpper r.1 :: r.2) := by
  have h := (handleConnection_spec st (encodeRequests reqs)).2.2.1
  rw [parseStream_encodeRequests reqs hreq] at h
  rw [h, List.map_map]
  rfl

/-- Witness for C5: two requests, sent lower-case, are recorded in send
order with upper-cased names. -/
theorem history_in_send_order_witness :
    (∀ r ∈ [(chars "ping", [chars "x"]), (chars "get", [chars "k"])],
      (∀ s ∈ r.1 :: r.2, ¬(s = [] ∨ s = chars "nil") ∧
        s.length ≤ 2 ^ 63 - 1) ∧ r.2.length + 1 ≤ 2 ^ 63 - 1) ∧
    (handleConnection initialState
        (encodeRequests [(chars "ping", [chars "x"]), (chars "get", [chars "k"])])
      ).state.commandsHistory
      = initialState.commandsHistory ++
          [(chars "ping", [chars "x"]), (chars "get", [chars "k"])].map
            (fun r => goToUpper r.1 :: r.2) :=
  ⟨by decide, history_in_send_order initialState
    [(chars "ping", [chars "x"]), (chars "get", [chars "k"])] (by decide)⟩

/-- C6: `RegisterCommandHandler` stores handlers under the upper-cased name;
a request whose command is any casing variant dispatches to the most
recently registered handler among names equal up to case, and two such
registrations leave exactly one binding in the registry. -/
theorem register_case_insensitive (st : ServerState) (s1 s2 sr : List Char)
    (h1 h2 : HandlerFn) (args : List (List Char))
    (e1 : goToUpper s1 = goToUpper s2) (e2 : goToUpper sr = goToUpper s2) :
    lookupHandler (RegisterCommandHandler st s1 h1).handlers (goToUpper s2)
      = some h1 ∧
    lookupHandler
        (RegisterCommandHandler (RegisterCommandHandler st s1 h1) s2 h2).handlers
        (goToUpper sr) = some h2 ∧
    ((RegisterCommandHandler (RegisterCommandHandler st s1 h1) s2 h2).handlers.filter
        (fun p => p.1 = goToUpper s2)).length = 1 ∧
    (handleCommand (RegisterCommandHandler (RegisterCommandHandler st s1 h1) s2 h2)
        (goToUpper sr) args).2 = h2 args := by
  have hlk : lookupHandler
      (RegisterCommandHandler (RegisterCommandHandler st s1 h1) s2 h2).handlers
      (goToUpper sr) = some h2 := by
    rw [RegisterCommandHandler, lookupHandler, if_pos e2.symm]
  refine ⟨?_, hlk, ?_, ?_⟩
  · rw [RegisterCommandHandler, lookupHandler, if_pos e1]
  · rw [RegisterCommandHandler, List.filter_cons]
    simp only [decide_eq_true_eq, eq_self_iff_true, if_true, if_pos]
    rw [filter_key_after_erase]
    rfl
  · rw [handleCommand, hlk]

/-- Handler used by the C6 witness (first registration). -/
def wOne : HandlerFn := fun _ => chars "-one\r\n"

/-- Handler used by the C6 witness (second registration). -/
def wTwo : HandlerFn := fun _ => chars "+two\r\n"

/-- Witness for C6: registering `ping` then `PiNg` and dispatching `PING`
reaches the second handler, which is the single registry entry. -/
theorem register_case_insensitive_witness :
    goToUpper (chars "ping") = goToUpper (chars "PiNg") ∧
    goToUpper (chars "PING") = goToUpper (chars "PiNg") ∧
    (lookupHandler
        (RegisterCommandHandler initialState (chars "ping") wOne).handlers
        (goToUpper (chars "PiNg")) = some wOne ∧
      lookupHandler
        (RegisterCommandHandler
          (RegisterCommandHandler initialState (chars "ping") wOne)
          (chars "PiNg") wTwo).handlers
        (goToUpper (chars "PING")) = some wTwo ∧
      ((RegisterCommandHandler
          (RegisterCommandHandler initialState (chars "ping") wOne)
          (chars "PiNg") wTwo).handlers.filter
        (fun p => p.1 = goToUpper (chars "PiNg"))).length = 1 ∧
      (handleCommand
        (RegisterCommandHandler
          (RegisterCommandHandler initialState (chars "ping") wOne)
          (chars "PiNg") wTwo)
        (goToUpper (chars "PING")) ([] : List (List Char))).2
        = wTwo ([] : List (List Char))) :=
  ⟨by decide, by decide,
    register_case_insensitive initialState (chars "ping") (chars "PiNg")
      (chars "PING") wOne wTwo ([] : List (List Char))
      (by decide) (by decide)⟩

/-- C7: `WriteSimpleString` emits exactly `+` followed by the normalised
text and CRLF, and `WriteError` emits exactly `-` followed by the normalised
message and CRLF, where normalisation replaces every whitespace character by
a single space and leaves all other characters unchanged. -/
theorem writeSimpleString_writeError_normalize (s msg : List Char) :
    WriteSimpleString s = '+' :: normalizeSpec s ++ crlf ∧
    WriteError msg = '-' :: normalizeSpec msg ++ crlf := by
  rw [WriteSimpleString, WriteError, inlineText_eq_normalizeSpec,
    inlineText_eq_normalizeSpec]
  exact ⟨rfl, rfl⟩

/-- C8: after `Start`, the default `PING` handler is registered; dispatching
`PING` with exactly one argument echoes it as a bulk string, and with no
arguments answers the simple string `PONG`. -/
theorem start_registers_ping (st : ServerState) (a : List Char) :
    lookupHandler (startRegister st).handlers (chars "PING") = some pingHandler ∧
    (handleCommand (startRegister st) (chars "PING") [a]).2 = WriteBulkString a ∧
    (handleCommand (startRegister st) (chars "PING") []).2
      = WriteSimpleString (chars "PONG") := by
  have hlk : lookupHandler (startRegister st).handlers (chars "PING")
      = some pingHandler := by
    rw [startRegister, RegisterCommandHandler, lookupHandler, if_pos (by decide)]
  refine ⟨hlk, ?_, ?_⟩
  · simp only [handleCommand, hlk]
    rfl
  · simp only [handleCommand, hlk]
    rfl

/-- C9: a request frame declaring an element count below one (for example
`*0` or `*-1`) is rejected by `ReadCommand` with `ErrInvalidSyntax`:
`scanArray` decodes zero elements for a non-positive count and the empty
request is refused rather than dispatched. -/
theorem readCommand_rejects_nonpositive_count (i : Int) (rest : List Char)
    (hlt : i < 1) (hge : -(2 ^ 63) ≤ i) :
    ReadCommand ('*' :: intDecimal i ++ crlf ++ rest)
      = .error .invalidSyntax := by
  have hpre : '\n' ∉ ('*' :: intDecimal i ++ ['\r']) := by
    intro hm
    rcases List.mem_cons.mp hm with hx | hx
    · exact absurd hx (by decide)
    · rcases List.mem_append.mp hx with hy | hy
      · exact newline_not_mem_intDecimal _ hy
      · simp at hy
  have hlen2 : 2 ≤ ('*' :: intDecimal i ++ ['\r']).length := by simp
  have hsplit : '*' :: intDecimal i ++ crlf ++ rest
      = ('*' :: intDecimal i ++ ['\r']) ++ '\n' :: rest := by simp [crlf]
  rw [hsplit]
  simp only [ReadCommand, scanArray, scanLine_of_append _ _ hpre hlen2]
  have hline : ('*' :: intDecimal i ++ ['\r']) ++ ['\n']
      = '*' :: (intDecimal i ++ ['\r', '\n']) := by simp
  rw [hline]
  rw [if_neg (by simp)]
  rw [if_pos (by rw [List.head?_cons])]
  have hslice : (('*' :: (intDecimal i ++ ['\r', '\n'])).drop 1).take
      (('*' :: (intDecimal i ++ ['\r', '\n'])).length - 3) = intDecimal i := by
    rw [List.drop_one, List.tail_cons]
    have h3 : ('*' :: (intDecimal i ++ ['\r', '\n'])).length - 3
        = (intDecimal i).length := by simp
    rw [h3]
    exact List.take_left _ _
  rw [hslice]
  simp only [goAtoi_intDecimal i hge (by omega)]
  rw [show i.toNat = 0 from by omega]
  rw [scanElements]

/-- Witness for C9 at the count `-1` with unread trailing bytes. -/
theorem readCommand_rejects_nonpositive_count_witness :
    ((-1 : Int) < 1) ∧ (-(2 ^ 63) ≤ (-1 : Int)) ∧
    ReadCommand ('*' :: intDecimal (-1) ++ crlf ++ chars "unread")
      = .error .invalidSyntax :=
  ⟨by decide, by decide,
    readCommand_rejects_nonpositive_count (-1) (chars "unread")
      (by decide) (by decide)⟩

/-- C10: for a non-negative declared length, `scanBulkString` reads exactly
`length + 2` bytes after the length line and returns the first `length`
bytes, whatever the final two bytes are: the frame terminator is not
validated. -/
theorem scanBulkString_ignores_terminator (payload : List Char) (c1 c2 : Char)
    (extra : List Char) (h : payload.length ≤ 2 ^ 63 - 1) :
    scanBulkString ('$' :: natDecimal payload.length ++ crlf ++
        (payload ++ c1 :: c2 :: extra)) = .ok (payload, extra) :=
  scanBulkString_reads payload c1 c2 extra h

/-- Witness for C10: a three-byte payload followed by `XY` instead of CRLF
is still accepted, and exactly the payload is returned. -/
theorem scanBulkString_ignores_terminator_witness :
    (chars "foo").length ≤ 2 ^ 63 - 1 ∧
    scanBulkString ('$' :: natDecimal (chars "foo").length ++ crlf ++
        (chars "foo" ++ 'X' :: 'Y' :: chars "rest"))
      = .ok (chars "foo", chars "rest") :=
  ⟨by decide,
    scanBulkString_ignores_terminator (chars "foo") 'X' 'Y' (chars "rest")
      (by decide)⟩
